import Mathlib

/-!
Verification development for the git-heatmaps contribution aggregation core.

Shallow embedding of:
- the merge / date-range logic of the contribution service
  (src: contributionsService, functions mergeContributions and generateDateRange);
- the aggregation orchestration of fetchAggregatedContributions;
- the in-memory TTL + LRU cache (createMemoryCache);
- the GitLab event deduplication, filtering and weighting pipeline
  (gitlabService fetchUserEvents, gitlabEventFilter, gitlabAggregator).

Modelling conventions:
- Calendar days (YYYY-MM-DD strings parsed via the JS Date at UTC midnight)
  are modelled as day numbers (Nat): parsing an ISO date and formatting it
  back is a bijection between valid ISO dates and day numbers, setDate(+1)
  is the successor, and Date comparison is numeric comparison.
- JS Map objects are modelled as association lists with JS Map semantics:
  set on an existing key updates in place keeping its position, set on a
  fresh key appends, iteration follows list order.
- Millisecond clocks (Date.now()) are passed explicitly as Int arguments.
- Asynchronous fetches are modelled by their settled outcomes
  (Except String ContributionData); completion order of the at most two
  concurrent fetches is modelled as dispatch order (github then gitlab).
-/

namespace GitHeatmaps

/-- The two providers of the system (the provider field of ContributionData). -/
inductive Provider where
  | github
  | gitlab
  deriving DecidableEq, Repr

/-- One per-day count of a provider series (domain ContributionDay,
with dateIso modelled as a day number). -/
structure ContributionDay where
  dateIso : Nat
  count : Nat
  deriving DecidableEq, Repr

/-- A provider series (domain ContributionData). -/
structure ContributionData where
  provider : Provider
  user : String
  days : List ContributionDay
  deriving DecidableEq, Repr

/-- One entry of the unified series (UnifiedContribution). -/
structure UnifiedContribution where
  date : Nat
  github : Nat
  gitlab : Nat
  total : Nat
  deriving DecidableEq, Repr

/-- The loop of generateDateRange, with the per-iteration guard
`current <= end` made structurally recursive over an iteration bound. -/
def generateDateRangeAux : Nat → Nat → Nat → List Nat
  | 0, _, _ => []
  | fuel + 1, current, endDate =>
    if current ≤ endDate then current :: generateDateRangeAux fuel (current + 1) endDate
    else []

/-- generateDateRange from contributionsService: all days of the inclusive
range, by the loop `while (current <= end) push(current); current += 1 day`.
The iteration bound toDate + 1 - fromDate is exactly the number of loop
iterations, so the guard, not the bound, terminates the loop. -/
def generateDateRange (fromDate toDate : Nat) : List Nat :=
  generateDateRangeAux (toDate + 1 - fromDate) fromDate toDate

/-- The date-keyed map built inside mergeContributions
(`Map<string, { github, gitlab }>`), as a lookup function. -/
def ContribMap : Type := Nat → Option (Nat × Nat)

/-- Map.set on the contribution map. -/
def mapSet (m : ContribMap) (k : Nat) (v : Nat × Nat) : ContribMap :=
  fun d => if d = k then some v else m d

/-- The initialization loop of mergeContributions: every day of the range
is mapped to zero counts for both providers. -/
def initMap (dates : List Nat) : ContribMap :=
  dates.foldl (fun m d => mapSet m d (0, 0)) (fun _ => none)

/-- One iteration of the populate loop of mergeContributions: write the
day count into the provider column of an existing entry
(`existing.github = day.count` resp. `existing.gitlab = day.count`);
days absent from the map (outside the requested range) are ignored. -/
def applyDay (p : Provider) (m : ContribMap) (day : ContributionDay) : ContribMap :=
  match m day.dateIso with
  | none => m
  | some e =>
    match p with
    | Provider.github => mapSet m day.dateIso (day.count, e.2)
    | Provider.gitlab => mapSet m day.dateIso (e.1, day.count)

/-- The populate loop of mergeContributions for one source result. -/
def populateResult (m : ContribMap) (r : ContributionData) : ContribMap :=
  r.days.foldl (applyDay r.provider) m

/-- mergeContributions from contributionsService: initialize all days of the
range to zero, populate per-provider columns from each source result, then
emit the unified entries in range order (the non-null map read
`contributionMap.get(date)!` is modelled by getD, which never falls back to
its default because initialization covers every emitted date). -/
def mergeContributions (sourceResults : List ContributionData)
    (fromDate toDate : Nat) : List UnifiedContribution :=
  let allDates := generateDateRange fromDate toDate
  let m := sourceResults.foldl populateResult (initMap allDates)
  allDates.map (fun d =>
    let c := (m d).getD (0, 0)
    ⟨d, c.1, c.2, c.1 + c.2⟩)

/-- A per-source error collected by the aggregator (SourceError). -/
structure SourceError where
  source : Provider
  message : String
  deriving DecidableEq, Repr

/-- The aggregator result (AggregatedContributionResult). -/
structure AggregatedContributionResult where
  contributions : List UnifiedContribution
  errors : List SourceError
  sourcesRequested : Nat
  sourcesSucceeded : Nat
  deriving DecidableEq, Repr

/-- A cache write performed by the aggregator, identified by the provider
whose key it targets (buildSourceCacheKey fixes provider, token and range
within one request, so the provider identifies the key). -/
structure CacheWriteOp where
  provider : Provider
  data : ContributionData
  ttlMs : Nat
  deriving DecidableEq, Repr

/-- Cache TTL constant of the contribution service: 24 hours in ms. -/
def CACHE_TTL_MS : Nat := 24 * 60 * 60 * 1000

/-- Settled outcome of a fetch promise, as an optional success value. -/
def exceptToOption : Except String ContributionData → Option ContributionData
  | Except.ok d => some d
  | Except.error _ => none

/-- SourceError entries pushed by the catch handler of one fetch promise. -/
def exceptErrorList (p : Provider) : Except String ContributionData → List SourceError
  | Except.ok _ => []
  | Except.error m => [⟨p, m⟩]

/-- The effective cached value for one provider: the code consults the cache
only when both token and username are present (and lookupSourceCache itself
returns null without a cache instance). -/
def effCached (token username hasCache : Bool) (lookup : Option ContributionData) :
    Option ContributionData :=
  if token && username then (if hasCache then lookup else none) else none

/-- One iteration of the write-back loop of fetchAggregatedContributions:
skip sources that were served from cache, otherwise write a source under its
provider key when that provider token is present, with TTL CACHE_TTL_MS. -/
def writeBackOne (cachedGitHub cachedGitLab : Option ContributionData)
    (githubToken gitlabToken : Bool) (src : ContributionData) : Option CacheWriteOp :=
  if (src.provider = Provider.github ∧ cachedGitHub.isSome = true) ∨
     (src.provider = Provider.gitlab ∧ cachedGitLab.isSome = true) then
    none
  else if src.provider = Provider.github then
    (if githubToken then some ⟨Provider.github, src, CACHE_TTL_MS⟩ else none)
  else
    (if gitlabToken then some ⟨Provider.gitlab, src, CACHE_TTL_MS⟩ else none)

/-- fetchAggregatedContributions from contributionsService, after username
resolution: booleans state which services, usernames and tokens are present;
cacheLookup* are what cache.get would return when consulted; *Fetch are the
settled outcomes of the provider fetches when dispatched. Returns the result
together with the list of cache writes performed by the write-back loop. -/
def fetchAggregatedContributions
    (githubService gitlabService githubUsername gitlabUsername : Bool)
    (githubToken gitlabToken hasCache : Bool)
    (cacheLookupGitHub cacheLookupGitLab : Option ContributionData)
    (githubFetch gitlabFetch : Except String ContributionData)
    (fromDate toDate : Nat) :
    AggregatedContributionResult × List CacheWriteOp :=
  let cachedGitHub := effCached githubToken githubUsername hasCache cacheLookupGitHub
  let cachedGitLab := effCached gitlabToken gitlabUsername hasCache cacheLookupGitLab
  let dispatchGitHub := githubService && githubUsername && cachedGitHub.isNone
  let dispatchGitLab := gitlabService && gitlabUsername && cachedGitLab.isNone
  let sourcesRequested :=
    (if dispatchGitHub then 1 else 0) + (if dispatchGitLab then 1 else 0)
  let fetchedGitHub := if dispatchGitHub then exceptToOption githubFetch else none
  let fetchedGitLab := if dispatchGitLab then exceptToOption gitlabFetch else none
  let errors :=
    (if dispatchGitHub then exceptErrorList Provider.github githubFetch else []) ++
    (if dispatchGitLab then exceptErrorList Provider.gitlab gitlabFetch else [])
  let sourceResults :=
    cachedGitHub.toList ++ cachedGitLab.toList ++
    fetchedGitHub.toList ++ fetchedGitLab.toList
  let contributions := mergeContributions sourceResults fromDate toDate
  let result : AggregatedContributionResult :=
    ⟨contributions, errors, sourcesRequested, sourceResults.length⟩
  let writes :=
    if hasCache then
      sourceResults.filterMap (writeBackOne cachedGitHub cachedGitLab githubToken gitlabToken)
    else []
  (result, writes)

/-- Association list get, with JS Map lookup semantics. -/
def assocGet {α : Type} : List (String × α) → String → Option α
  | [], _ => none
  | p :: rest, k => if p.1 = k then some p.2 else assocGet rest k

/-- Association list set, with JS Map set semantics: an existing key is
updated in place keeping its position, a fresh key is appended. -/
def assocSet {α : Type} : List (String × α) → String → α → List (String × α)
  | [], k, v => [(k, v)]
  | p :: rest, k, v => if p.1 = k then (k, v) :: rest else p :: assocSet rest k v

/-- Association list delete, with JS Map delete semantics. -/
def assocDelete {α : Type} : List (String × α) → String → List (String × α)
  | [], _ => []
  | p :: rest, k => if p.1 = k then assocDelete rest k else p :: assocDelete rest k

/-- A stored cache entry (CacheEntry of cacheTypes). -/
structure CacheEntry (V : Type) where
  value : V
  expiresAt : Int
  deriving DecidableEq, Repr

/-- The mutable state of one createMemoryCache instance: the value store,
the LRU access-time map and the hit/miss counters. -/
structure CacheState (V : Type) where
  store : List (String × CacheEntry V)
  accessTimes : List (String × Int)
  hits : Nat
  misses : Nat
  deriving DecidableEq, Repr

/-- The state of a freshly created memory cache. -/
def emptyCache (V : Type) : CacheState V := ⟨[], [], 0, 0⟩

/-- Constructor options of createMemoryCache (MemoryCacheOptions). -/
structure MemoryCacheOptions where
  defaultTtlMs : Option Int
  maxSize : Option Nat
  deriving DecidableEq, Repr

namespace MemCache

/-- isExpired from createMemoryCache: `Date.now() >= entry.expiresAt`. -/
def isExpired {V : Type} (entry : CacheEntry V) (now : Int) : Bool :=
  decide (now ≥ entry.expiresAt)

/-- One step of the evictLRU scan: replace the candidate only on a strictly
smaller access time (`accessTime < oldestTime`). -/
def findOldestStep (acc : Option (String × Int)) (p : String × Int) :
    Option (String × Int) :=
  match acc with
  | none => some p
  | some q => if p.2 < q.2 then some p else acc

/-- The scan of evictLRU over the access-time map: the first entry carrying
the strictly smallest access time (the loop starts from oldestTime
= Infinity, so the first entry always replaces the initial candidate). -/
def findOldest (ats : List (String × Int)) : Option (String × Int) :=
  ats.foldl findOldestStep none

/-- evictLRU from createMemoryCache. The guard `!maxSize` is JS truthiness:
an absent maxSize and maxSize = 0 both skip eviction; likewise the final
`if (oldestKey)` skips deletion when the found key is the empty string. -/
def evictLRU {V : Type} (opts : MemoryCacheOptions) (s : CacheState V) : CacheState V :=
  match opts.maxSize with
  | none => s
  | some n =>
    if n = 0 ∨ s.store.length < n then s
    else
      match findOldest s.accessTimes with
      | none => s
      | some p =>
        if p.1 = "" then s
        else ⟨assocDelete s.store p.1, assocDelete s.accessTimes p.1, s.hits, s.misses⟩

/-- get from createMemoryCache, returning the looked-up value and the
successor state (expired entries are deleted lazily, access times and
hit/miss counters are updated). -/
def get {V : Type} (s : CacheState V) (key : String) (now : Int) :
    Option V × CacheState V :=
  match assocGet s.store key with
  | none => (none, ⟨s.store, s.accessTimes, s.hits, s.misses + 1⟩)
  | some entry =>
    if isExpired entry now then
      (none, ⟨assocDelete s.store key, assocDelete s.accessTimes key, s.hits, s.misses + 1⟩)
    else
      (some entry.value, ⟨s.store, assocSet s.accessTimes key now, s.hits + 1, s.misses⟩)

/-- set from createMemoryCache, returning the successor state and the thrown
error message, if any (the invalid-TTL throw happens before any mutation,
so the error case returns the state unchanged). -/
def set {V : Type} (opts : MemoryCacheOptions) (s : CacheState V) (key : String)
    (value : V) (ttlMs : Option Int) (now : Int) : CacheState V × Option String :=
  let ttl := match ttlMs with | some t => some t | none => opts.defaultTtlMs
  match ttl with
  | none => (s, some ("Invalid TTL for cache key " ++ key))
  | some t =>
    if t ≤ 0 then (s, some ("Invalid TTL for cache key " ++ key))
    else
      let s1 := evictLRU opts s
      (⟨assocSet s1.store key ⟨value, now + t⟩, assocSet s1.accessTimes key now,
        s1.hits, s1.misses⟩, none)

end MemCache

/-- One set call of an insertion sequence, with its explicit clock value. -/
structure SetOp (V : Type) where
  key : String
  value : V
  ttl : Int
  time : Int
  deriving DecidableEq, Repr

/-- Runs a sequence of set calls against a cache state. -/
def runSets {V : Type} (opts : MemoryCacheOptions) (s : CacheState V)
    (ops : List (SetOp V)) : CacheState V :=
  ops.foldl (fun st op => (MemCache.set opts st op.key op.value (some op.ttl) op.time).1) s

/-- Push metadata carried by a GitLab push event (pushData). -/
structure PushData where
  commitCount : Option Nat
  action : Option String
  refType : Option String
  commitTitle : Option String
  deriving DecidableEq, Repr

/-- A GitLab event in internal camelCase format (GitLabEvent). -/
structure GitLabEvent where
  id : Nat
  actionName : String
  targetType : Option String
  createdAt : String
  pushData : Option PushData
  deriving DecidableEq, Repr

/-- CONTRIBUTION_ACTION_NAMES from gitlabEventTypes. -/
def CONTRIBUTION_ACTION_NAMES : List String :=
  ["pushed", "pushed to", "pushed new", "commented", "commented on",
   "created", "opened", "merged", "approved", "accepted", "wiki_page"]

/-- PUSH_ACTION_NAMES from gitlabEventTypes. -/
def PUSH_ACTION_NAMES : List String := ["pushed", "pushed to", "pushed new"]

/-- isPushAction from gitlabEventTypes. -/
def isPushAction (actionName : String) : Bool :=
  PUSH_ACTION_NAMES.contains actionName

/-- isContributionAction from gitlabEventTypes. -/
def isContributionAction (actionName : String) : Bool :=
  CONTRIBUTION_ACTION_NAMES.contains actionName

/-- EXCLUDED_TARGET_TYPES from gitlabEventTypes. -/
def EXCLUDED_TARGET_TYPES : List String := ["User"]

/-- isExcludedTargetType: `targetType !== null && EXCLUDED.has(targetType)`. -/
def isExcludedTargetType : Option String → Bool
  | none => false
  | some t => EXCLUDED_TARGET_TYPES.contains t

/-- isContributionEvent from gitlabEventFilter. -/
def isContributionEvent (e : GitLabEvent) : Bool :=
  isContributionAction e.actionName && !(isExcludedTargetType e.targetType)

/-- filterContributionEvents from gitlabEventFilter. -/
def filterContributionEvents (events : List GitLabEvent) : List GitLabEvent :=
  events.filter isContributionEvent

/-- The optional chain `event.pushData?.commitCount`. -/
def pushCommitCountOf (e : GitLabEvent) : Option Nat :=
  match e.pushData with
  | none => none
  | some pd => pd.commitCount

/-- getEventContributionWeight from gitlabEventFilter:
`if (isPushAction(name) && event.pushData?.commitCount) return commitCount;
return 1`. JS truthiness makes a commit count of 0 fall back to 1. -/
def getEventContributionWeight (e : GitLabEvent) : Nat :=
  if isPushAction e.actionName then
    match pushCommitCountOf e with
    | some c => if c = 0 then 1 else c
    | none => 1
  else 1

/-- extractDateFromIso from gitlabAggregator: `iso.split("T")[0]`, i.e. the
characters before the first T (the whole string if no T occurs). -/
def extractDateFromIso (isoDatetime : String) : String :=
  String.mk (isoDatetime.data.takeWhile (fun c => c != 'T'))

/-- Aggregated daily contribution (DailyContribution of gitlabAggregator). -/
structure DailyContribution where
  date : String
  count : Nat
  source : String
  deriving DecidableEq, Repr

/-- One iteration of the daily aggregation loop of aggregateEventsByDay:
`dailyMap.set(date, (dailyMap.get(date) || 0) + weight)`. -/
def aggregateStep (m : List (String × Nat)) (e : GitLabEvent) : List (String × Nat) :=
  let date := extractDateFromIso e.createdAt
  let weight := getEventContributionWeight e
  let current := (assocGet m date).getD 0
  assocSet m date (current + weight)

/-- Insertion into a date-sorted list (dates in the daily map are unique,
so the comparison semantics of the JS sort beyond a total order by date do
not matter). -/
def insertByDate (a : DailyContribution) : List DailyContribution → List DailyContribution
  | [] => [a]
  | b :: rest => if a.date < b.date then a :: b :: rest else b :: insertByDate a rest

/-- The final `result.sort((a, b) => a.date.localeCompare(b.date))`. -/
def sortByDate (l : List DailyContribution) : List DailyContribution :=
  l.foldr insertByDate []

/-- aggregateEventsByDay from gitlabAggregator. -/
def aggregateEventsByDay (events : List GitLabEvent) : List DailyContribution :=
  let contributionEvents := filterContributionEvents events
  let dailyMap := contributionEvents.foldl aggregateStep []
  sortByDate (dailyMap.map (fun p => ⟨p.1, p.2, "gitlab"⟩))

/-- One iteration of the deduplication loop of fetchUserEvents: an event
whose id is in the seen set is dropped, otherwise it is appended and its id
recorded. State is (allEvents, seenIds). -/
def dedupStep (st : List GitLabEvent × List Nat) (e : GitLabEvent) :
    List GitLabEvent × List Nat :=
  if e.id ∈ st.2 then st else (st.1 ++ [e], st.2 ++ [e.id])

/-- The deduplication core of fetchUserEvents from gitlabService: the events
returned per action-category query (pages already concatenated by
fetchEventsByAction) are folded through a global seen-set of event ids. -/
def fetchUserEvents (responses : List (List GitLabEvent)) : List GitLabEvent :=
  (responses.foldl (fun st events => events.foldl dedupStep st) ([], [])).1

/-- The value left in a provider column of one map entry after the populate
loop ran over a list of days: the count of the last day matching the date,
or the previous column value when no day matches. -/
def lastCount (days : List ContributionDay) (d : Nat) (x : Nat) : Nat :=
  days.foldl (fun a day => if day.dateIso = d then day.count else a) x

/-- The store entries produced by a run of fresh set calls. -/
def opsStoreEntries {V : Type} (ops : List (SetOp V)) : List (String × CacheEntry V) :=
  ops.map (fun op => (op.key, ⟨op.value, op.time + op.ttl⟩))

/-- The access-time entries produced by a run of fresh set calls. -/
def opsAccessTimes {V : Type} (ops : List (SetOp V)) : List (String × Int) :=
  ops.map (fun op => (op.key, op.time))

/-- A push event carrying an embedded commit count of 4. -/
def samplePushFour : GitLabEvent :=
  ⟨1, "pushed", none, "2025-06-01T10:00:00Z", some ⟨some 4, none, none, none⟩⟩

/-- A push event carrying an embedded commit count of 0. -/
def zeroCommitPush : GitLabEvent :=
  ⟨2, "pushed", none, "2025-06-01T10:00:00Z", some ⟨some 0, none, none, none⟩⟩

/-! ## Lemmas about the generated date range -/

theorem generateDateRangeAux_eq_range (n : Nat) :
    ∀ f t : Nat, t + 1 - f = n → generateDateRangeAux n f t = List.range' f n := by
  induction n with
  | zero => intro f t _; rfl
  | succ k ih =>
    intro f t h
    have hf : f ≤ t := by omega
    have h2 : t + 1 - (f + 1) = k := by omega
    simp only [generateDateRangeAux, if_pos hf, ih (f + 1) t h2, List.range']

theorem generateDateRange_eq_range (f t : Nat) :
    generateDateRange f t = List.range' f (t + 1 - f) :=
  generateDateRangeAux_eq_range (t + 1 - f) f t rfl

theorem mergeContributions_date_map (rs : List ContributionData) (f t : Nat) :
    (mergeContributions rs f t).map (fun u => u.date) = generateDateRange f t := by
  unfold mergeContributions
  simp only [List.map_map]
  exact List.map_id'' (fun _ => rfl) _

/-- C1: for every valid day range and every list of provider series, the
unified series has exactly (toDate - fromDate) + 1 entries, one per calendar
day of the inclusive range, in ascending order with no gaps: the entry at
index i is the day fromDate + i. -/
theorem merge_unified_series_full_range (rs : List ContributionData)
    (fromDate toDate : Nat) (h : fromDate ≤ toDate) :
    (mergeContributions rs fromDate toDate).length = toDate - fromDate + 1 ∧
    ∀ i (hi : i < (mergeContributions rs fromDate toDate).length),
      ((mergeContributions rs fromDate toDate).get ⟨i, hi⟩).date = fromDate + i := by
  have hmap := mergeContributions_date_map rs fromDate toDate
  have hlen : (mergeContributions rs fromDate toDate).length = toDate - fromDate + 1 := by
    have := congrArg List.length hmap
    simp only [List.length_map] at this
    rw [this, generateDateRange_eq_range, List.length_range']
    omega
  refine ⟨hlen, ?_⟩
  intro i hi
  have hget : ((mergeContributions rs fromDate toDate).map (fun u => u.date)).get
      ⟨i, by simpa using hi⟩ = (generateDateRange fromDate toDate).get
      ⟨i, by rw [← hmap]; simpa using hi⟩ := by
    exact List.get_of_eq hmap _
  rw [List.get_map] at hget
  rw [hget]
  have hi2 : i < (List.range' fromDate (toDate + 1 - fromDate)).length := by
    rw [List.length_range']
    omega
  simp [generateDateRange_eq_range, List.get_eq_getElem, List.getElem_range']

/-- Witness for C1 at a concrete range and series list. -/
theorem merge_unified_series_full_range_witness :
    (mergeContributions [⟨Provider.github, "u", [⟨3, 7⟩]⟩] 2 5).length = 4 :=
  (merge_unified_series_full_range [⟨Provider.github, "u", [⟨3, 7⟩]⟩] 2 5 (by decide)).1

/-! ## Lemmas about the merge populate loop -/

theorem initFold_lookup (dates : List Nat) :
    ∀ (m : ContribMap) (d : Nat),
      (dates.foldl (fun m x => mapSet m x (0, 0)) m) d =
        if d ∈ dates then some (0, 0) else m d := by
  induction dates with
  | nil => intro m d; simp
  | cons a rest ih =>
    intro m d
    simp only [List.foldl_cons, ih, List.mem_cons]
    by_cases hd : d ∈ rest
    · simp [hd]
    · by_cases hda : d = a
      · simp [hd, hda, mapSet]
      · simp [hd, hda, mapSet]

theorem initMap_lookup (dates : List Nat) (d : Nat) :
    initMap dates d = if d ∈ dates then some (0, 0) else none := by
  unfold initMap
  exact initFold_lookup dates _ d

theorem populate_github_lookup (days : List ContributionDay) :
    ∀ (m : ContribMap) (d : Nat),
      (days.foldl (applyDay Provider.github) m) d =
        match m d with
        | none => none
        | some e => some (lastCount days d e.1, e.2) := by
  induction days with
  | nil =>
    intro m d
    simp only [List.foldl_nil, lastCount, List.foldl_nil]
    cases m d <;> rfl
  | cons day rest ih =>
    intro m d
    simp only [List.foldl_cons, ih]
    unfold applyDay
    by_cases hdd : day.dateIso = d
    · subst hdd
      cases hm : m day.dateIso with
      | none => simp [hm, lastCount]
      | some e =>
        simp only [hm, mapSet, if_pos rfl, lastCount, List.foldl_cons, if_pos rfl]
        simp
    · cases hm : m day.dateIso with
      | none =>
        simp only [hm]
        cases hd2 : m d <;> simp [lastCount, List.foldl_cons, hdd, hd2]
      | some e =>
        have hne : ¬ d = day.dateIso := fun hc => hdd hc.symm
        simp only [hm, mapSet, if_neg hne]
        cases hd2 : m d <;> simp [lastCount, List.foldl_cons, hdd, hd2]

theorem populate_gitlab_lookup (days : List ContributionDay) :
    ∀ (m : ContribMap) (d : Nat),
      (days.foldl (applyDay Provider.gitlab) m) d =
        match m d with
        | none => none
        | some e => some (e.1, lastCount days d e.2) := by
  induction days with
  | nil =>
    intro m d
    simp only [List.foldl_nil, lastCount, List.foldl_nil]
    cases m d <;> rfl
  | cons day rest ih =>
    intro m d
    simp only [List.foldl_cons, ih]
    unfold applyDay
    by_cases hdd : day.dateIso = d
    · subst hdd
      cases hm : m day.dateIso with
      | none => simp [hm, lastCount]
      | some e =>
        simp only [hm, mapSet, if_pos rfl, lastCount, List.foldl_cons, if_pos rfl]
        simp
    · cases hm : m day.dateIso with
      | none =>
        simp only [hm]
        cases hd2 : m d <;> simp [lastCount, List.foldl_cons, hdd, hd2]
      | some e =>
        have hne : ¬ d = day.dateIso := fun hc => hdd hc.symm
        simp only [hm, mapSet, if_neg hne]
        cases hd2 : m d <;> simp [lastCount, List.foldl_cons, hdd, hd2]

theorem populate_comm (A B : ContributionData) (hA : A.provider = Provider.github)
    (hB : B.provider = Provider.gitlab) (m : ContribMap) :
    populateResult (populateResult m A) B = populateResult (populateResult m B) A := by
  funext d
  unfold populateResult
  rw [hA, hB]
  rw [populate_gitlab_lookup B.days (A.days.foldl (applyDay Provider.github) m) d]
  rw [populate_github_lookup A.days m d]
  rw [populate_github_lookup A.days (B.days.foldl (applyDay Provider.gitlab) m) d]
  rw [populate_gitlab_lookup B.days m d]
  cases m d <;> rfl

/-- C3: the merge of two provider series with distinct providers is
independent of the processing order. -/
theorem merge_provider_order_commutes (A B : ContributionData)
    (hA : A.provider = Provider.github) (hB : B.provider = Provider.gitlab)
    (fromDate toDate : Nat) :
    mergeContributions [A, B] fromDate toDate = mergeContributions [B, A] fromDate toDate := by
  unfold mergeContributions
  simp only [List.foldl_cons, List.foldl_nil]
  rw [populate_comm A B hA hB]

/-- Witness for C3 at concrete series. -/
theorem merge_provider_order_commutes_witness :
    mergeContributions [⟨Provider.github, "u", [⟨0, 3⟩]⟩, ⟨Provider.gitlab, "v", [⟨1, 2⟩]⟩] 0 1 =
      mergeContributions [⟨Provider.gitlab, "v", [⟨1, 2⟩]⟩, ⟨Provider.github, "u", [⟨0, 3⟩]⟩] 0 1 :=
  merge_provider_order_commutes ⟨Provider.github, "u", [⟨0, 3⟩]⟩
    ⟨Provider.gitlab, "v", [⟨1, 2⟩]⟩ rfl rfl 0 1

/-! ## Zero columns for providers absent from the merge input -/

theorem populate_fold_fst (rs : List ContributionData) :
    ∀ (m : ContribMap) (d : Nat), (∀ r ∈ rs, r.provider = Provider.gitlab) →
      ((rs.foldl populateResult m) d).map Prod.fst = (m d).map Prod.fst := by
  induction rs with
  | nil => intro m d _; rfl
  | cons r rest ih =>
    intro m d h
    have hr : r.provider = Provider.gitlab := h r (List.mem_cons_self r rest)
    have hrest : ∀ x ∈ rest, x.provider = Provider.gitlab :=
      fun x hx => h x (List.mem_cons_of_mem r hx)
    simp only [List.foldl_cons, ih (populateResult m r) d hrest]
    unfold populateResult
    rw [hr, populate_gitlab_lookup r.days m d]
    cases m d <;> rfl

theorem populate_fold_snd (rs : List ContributionData) :
    ∀ (m : ContribMap) (d : Nat), (∀ r ∈ rs, r.provider = Provider.github) →
      ((rs.foldl populateResult m) d).map Prod.snd = (m d).map Prod.snd := by
  induction rs with
  | nil => intro m d _; rfl
  | cons r rest ih =>
    intro m d h
    have hr : r.provider = Provider.github := h r (List.mem_cons_self r rest)
    have hrest : ∀ x ∈ rest, x.provider = Provider.github :=
      fun x hx => h x (List.mem_cons_of_mem r hx)
    simp only [List.foldl_cons, ih (populateResult m r) d hrest]
    unfold populateResult
    rw [hr, populate_github_lookup r.days m d]
    cases m d <;> rfl

theorem merge_github_column_zero (rs : List ContributionData) (f t : Nat)
    (h : ∀ r ∈ rs, r.provider = Provider.gitlab) :
    ∀ u ∈ mergeContributions rs f t, u.github = 0 := by
  intro u hu
  unfold mergeContributions at hu
  simp only [List.mem_map] at hu
  obtain ⟨d, hd, hu⟩ := hu
  have h1 := populate_fold_fst rs (initMap (generateDateRange f t)) d h
  rw [initMap_lookup, if_pos hd] at h1
  subst hu
  cases h2 : (rs.foldl populateResult (initMap (generateDateRange f t))) d with
  | none => rw [h2] at h1; simp at h1
  | some e =>
    rw [h2] at h1
    have he : e.1 = 0 := by simpa using h1
    simp [h2, he]

theorem merge_gitlab_column_zero (rs : List ContributionData) (f t : Nat)
    (h : ∀ r ∈ rs, r.provider = Provider.github) :
    ∀ u ∈ mergeContributions rs f t, u.gitlab = 0 := by
  intro u hu
  unfold mergeContributions at hu
  simp only [List.mem_map] at hu
  obtain ⟨d, hd, hu⟩ := hu
  have h1 := populate_fold_snd rs (initMap (generateDateRange f t)) d h
  rw [initMap_lookup, if_pos hd] at h1
  subst hu
  cases h2 : (rs.foldl populateResult (initMap (generateDateRange f t))) d with
  | none => rw [h2] at h1; simp at h1
  | some e =>
    rw [h2] at h1
    have he : e.2 = 0 := by simpa using h1
    simp [h2, he]

/-! ## Aggregator theorems -/

theorem effCached_none (tok user hc : Bool) : effCached tok user hc none = none := by
  cases tok <;> cases user <;> cases hc <;> rfl

theorem effCached_some_true (lookup : Option ContributionData) :
    effCached true true true lookup = lookup := rfl

/-- C2: when both providers are dispatched (neither cached) and exactly one
fetch fails, the aggregator reports sourcesRequested = 2, sourcesSucceeded
= 1, exactly one SourceError naming the failed provider, and the unified
series merges only the successful series, with the failed provider's column
zero on every day. -/
theorem aggregate_partial_failure (ghTok glTok hasCache : Bool) (msg : String)
    (d : ContributionData) (f t : Nat) :
    (d.provider = Provider.gitlab →
      (fetchAggregatedContributions true true true true ghTok glTok hasCache none none
          (Except.error msg) (Except.ok d) f t).1.sourcesRequested = 2 ∧
      (fetchAggregatedContributions true true true true ghTok glTok hasCache none none
          (Except.error msg) (Except.ok d) f t).1.sourcesSucceeded = 1 ∧
      (fetchAggregatedContributions true true true true ghTok glTok hasCache none none
          (Except.error msg) (Except.ok d) f t).1.errors = [⟨Provider.github, msg⟩] ∧
      (fetchAggregatedContributions true true true true ghTok glTok hasCache none none
          (Except.error msg) (Except.ok d) f t).1.contributions = mergeContributions [d] f t ∧
      (∀ u ∈ (fetchAggregatedContributions true true true true ghTok glTok hasCache none none
          (Except.error msg) (Except.ok d) f t).1.contributions, u.github = 0)) ∧
    (d.provider = Provider.github →
      (fetchAggregatedContributions true true true true ghTok glTok hasCache none none
          (Except.ok d) (Except.error msg) f t).1.sourcesRequested = 2 ∧
      (fetchAggregatedContributions true true true true ghTok glTok hasCache none none
          (Except.ok d) (Except.error msg) f t).1.sourcesSucceeded = 1 ∧
      (fetchAggregatedContributions true true true true ghTok glTok hasCache none none
          (Except.ok d) (Except.error msg) f t).1.errors = [⟨Provider.gitlab, msg⟩] ∧
      (fetchAggregatedContributions true true true true ghTok glTok hasCache none none
          (Except.ok d) (Except.error msg) f t).1.contributions = mergeContributions [d] f t ∧
      (∀ u ∈ (fetchAggregatedContributions true true true true ghTok glTok hasCache none none
          (Except.ok d) (Except.error msg) f t).1.contributions, u.gitlab = 0)) := by
  constructor
  · intro hd
    have hzero : ∀ r ∈ [d], r.provider = Provider.gitlab := by
      intro r hr
      simp only [List.mem_singleton] at hr
      subst hr; exact hd
    refine ⟨?_, ?_, ?_, ?_, ?_⟩ <;>
      simp [fetchAggregatedContributions, effCached_none, exceptToOption, exceptErrorList]
    exact merge_github_column_zero [d] f t hzero
  · intro hd
    have hzero : ∀ r ∈ [d], r.provider = Provider.github := by
      intro r hr
      simp only [List.mem_singleton] at hr
      subst hr; exact hd
    refine ⟨?_, ?_, ?_, ?_, ?_⟩ <;>
      simp [fetchAggregatedContributions, effCached_none, exceptToOption, exceptErrorList]
    exact merge_gitlab_column_zero [d] f t hzero

/-- Witness for C2 at a concrete failing github fetch. -/
theorem aggregate_partial_failure_witness :
    (fetchAggregatedContributions true true true true true true true none none
        (Except.error "boom") (Except.ok ⟨Provider.gitlab, "v", [⟨0, 2⟩]⟩) 0 1).1.sourcesRequested = 2 :=
  ((aggregate_partial_failure true true true "boom" ⟨Provider.gitlab, "v", [⟨0, 2⟩]⟩ 0 1).1 rfl).1

/-- C10: when both providers are served from cache, no fetch is dispatched:
sourcesRequested = 0 while both cached series count into sourcesSucceeded
= 2 and are merged into the result, so sourcesSucceeded exceeds
sourcesRequested. -/
theorem cached_sources_counting (ghS glS : Bool) (dGH dGL : ContributionData)
    (ghF glF : Except String ContributionData) (f t : Nat) :
    (fetchAggregatedContributions ghS glS true true true true true (some dGH) (some dGL)
        ghF glF f t).1.sourcesRequested = 0 ∧
    (fetchAggregatedContributions ghS glS true true true true true (some dGH) (some dGL)
        ghF glF f t).1.sourcesSucceeded = 2 ∧
    (fetchAggregatedContributions ghS glS true true true true true (some dGH) (some dGL)
        ghF glF f t).1.contributions = mergeContributions [dGH, dGL] f t ∧
    (fetchAggregatedContributions ghS glS true true true true true (some dGH) (some dGL)
        ghF glF f t).1.errors = [] := by
  refine ⟨?_, ?_, ?_, ?_⟩ <;>
    simp [fetchAggregatedContributions, effCached_some_true]

/-! ## Write-back policy -/

theorem exceptToOption_eq_some (ex : Except String ContributionData) (d : ContributionData)
    (h : exceptToOption ex = some d) : ex = Except.ok d := by
  cases ex <;> simp [exceptToOption] at h <;> simp [h]

theorem effCached_eq_some (tok user hc : Bool) (lk : Option ContributionData)
    (d : ContributionData) (h : effCached tok user hc lk = some d) : lk = some d := by
  cases tok <;> cases user <;> cases hc <;> simp [effCached] at h <;> simp [h]

theorem writeBackOne_some (cGH cGL : Option ContributionData) (ghT glT : Bool)
    (src : ContributionData) (w : CacheWriteOp)
    (h : writeBackOne cGH cGL ghT glT src = some w) :
    w.data = src ∧ w.ttlMs = CACHE_TTL_MS ∧ w.provider = src.provider ∧
    (src.provider = Provider.github → cGH.isSome = false ∧ ghT = true) ∧
    (src.provider = Provider.gitlab → cGL.isSome = false ∧ glT = true) := by
  unfold writeBackOne at h
  cases psrc : src.provider with
  | github =>
    rw [psrc] at h
    cases hcg : cGH.isSome with
    | true => simp [hcg] at h
    | false =>
      cases hg : ghT with
      | false => simp [hcg, hg] at h
      | true =>
        simp [hcg, hg] at h
        subst h
        simp [psrc]
  | gitlab =>
    rw [psrc] at h
    cases hcl : cGL.isSome with
    | true => simp [hcl] at h
    | false =>
      cases hg : glT with
      | false => simp [hcl, hg] at h
      | true =>
        simp [hcl, hg] at h
        subst h
        simp [psrc]

theorem agg_writes_eq (ghS glS ghU glU ghTok glTok hasCache : Bool)
    (lkGH lkGL : Option ContributionData) (ghF glF : Except String ContributionData)
    (f t : Nat) :
    (fetchAggregatedContributions ghS glS ghU glU ghTok glTok hasCache lkGH lkGL
        ghF glF f t).2 =
      if hasCache = true then
        ((effCached ghTok ghU hasCache lkGH).toList ++
         (effCached glTok glU hasCache lkGL).toList ++
         (if (ghS && ghU && (effCached ghTok ghU hasCache lkGH).isNone) = true then
            exceptToOption ghF else none).toList ++
         (if (glS && glU && (effCached glTok glU hasCache lkGL).isNone) = true then
            exceptToOption glF else none).toList).filterMap
          (writeBackOne (effCached ghTok ghU hasCache lkGH)
            (effCached glTok glU hasCache lkGL) ghTok glTok)
      else [] := rfl

/-- C9: only freshly fetched provider series are written back to cache. A
provider served from cache gets no write at all; every write carries the
fixed TTL CACHE_TTL_MS; and every write's data is exactly the successful
fresh fetch result of its provider. The hypotheses state that provider
adapters and cache entries carry their own provider tag, as the github and
gitlab services guarantee by construction. -/
theorem cache_writeback_only_fresh
    (ghS glS ghU glU ghTok glTok hasCache : Bool)
    (lkGH lkGL : Option ContributionData)
    (ghF glF : Except String ContributionData) (f t : Nat)
    (hghF : ∀ d, ghF = Except.ok d → d.provider = Provider.github)
    (hglF : ∀ d, glF = Except.ok d → d.provider = Provider.gitlab)
    (hlkGH : ∀ d, lkGH = some d → d.provider = Provider.github)
    (hlkGL : ∀ d, lkGL = some d → d.provider = Provider.gitlab) :
    ((effCached ghTok ghU hasCache lkGH).isSome = true →
      ∀ w ∈ (fetchAggregatedContributions ghS glS ghU glU ghTok glTok hasCache
          lkGH lkGL ghF glF f t).2, ¬ w.provider = Provider.github) ∧
    ((effCached glTok glU hasCache lkGL).isSome = true →
      ∀ w ∈ (fetchAggregatedContributions ghS glS ghU glU ghTok glTok hasCache
          lkGH lkGL ghF glF f t).2, ¬ w.provider = Provider.gitlab) ∧
    (∀ w ∈ (fetchAggregatedContributions ghS glS ghU glU ghTok glTok hasCache
        lkGH lkGL ghF glF f t).2, w.ttlMs = CACHE_TTL_MS) ∧
    (∀ w ∈ (fetchAggregatedContributions ghS glS ghU glU ghTok glTok hasCache
        lkGH lkGL ghF glF f t).2,
      (w.provider = Provider.github →
        effCached ghTok ghU hasCache lkGH = none ∧ ghF = Except.ok w.data) ∧
      (w.provider = Provider.gitlab →
        effCached glTok glU hasCache lkGL = none ∧ glF = Except.ok w.data)) := by
  have hmem : ∀ w, w ∈ (fetchAggregatedContributions ghS glS ghU glU ghTok glTok hasCache
      lkGH lkGL ghF glF f t).2 →
      ∃ src, (src ∈ (effCached ghTok ghU hasCache lkGH).toList ++
         (effCached glTok glU hasCache lkGL).toList ++
         (if (ghS && ghU && (effCached ghTok ghU hasCache lkGH).isNone) = true then
            exceptToOption ghF else none).toList ++
         (if (glS && glU && (effCached glTok glU hasCache lkGL).isNone) = true then
            exceptToOption glF else none).toList) ∧
        writeBackOne (effCached ghTok ghU hasCache lkGH)
          (effCached glTok glU hasCache lkGL) ghTok glTok src = some w := by
    intro w hw
    rw [agg_writes_eq] at hw
    cases hC : hasCache with
    | false => rw [hC] at hw; simp at hw
    | true =>
      rw [hC] at hw
      rw [if_pos rfl] at hw
      exact List.mem_filterMap.1 hw
  refine ⟨?_, ?_, ?_, ?_⟩
  · intro hsome w hw hwp
    obtain ⟨src, _, hwb⟩ := hmem w hw
    obtain ⟨_, _, hwprov, hgh, _⟩ := writeBackOne_some _ _ _ _ _ _ hwb
    have hsrcp : src.provider = Provider.github := by rw [← hwprov, hwp]
    have := (hgh hsrcp).1
    rw [hsome] at this
    exact absurd this (by decide)
  · intro hsome w hw hwp
    obtain ⟨src, _, hwb⟩ := hmem w hw
    obtain ⟨_, _, hwprov, _, hgl⟩ := writeBackOne_some _ _ _ _ _ _ hwb
    have hsrcp : src.provider = Provider.gitlab := by rw [← hwprov, hwp]
    have := (hgl hsrcp).1
    rw [hsome] at this
    exact absurd this (by decide)
  · intro w hw
    obtain ⟨src, _, hwb⟩ := hmem w hw
    exact (writeBackOne_some _ _ _ _ _ _ hwb).2.1
  · intro w hw
    obtain ⟨src, hsrc, hwb⟩ := hmem w hw
    obtain ⟨hwdata, _, hwprov, hgh, hgl⟩ := writeBackOne_some _ _ _ _ _ _ hwb
    constructor
    · intro hwp
      have hsrcp : src.provider = Provider.github := by rw [← hwprov, hwp]
      have hcgh : (effCached ghTok ghU hasCache lkGH).isSome = false := (hgh hsrcp).1
      have hcghn : effCached ghTok ghU hasCache lkGH = none := by
        cases hx : effCached ghTok ghU hasCache lkGH with
        | none => rfl
        | some y => rw [hx] at hcgh; simp at hcgh
      refine ⟨hcghn, ?_⟩
      simp only [List.mem_append] at hsrc
      rcases hsrc with ((hs1 | hs2) | hs3) | hs4
      · rw [hcghn] at hs1; simp at hs1
      · have : effCached glTok glU hasCache lkGL = some src := by
          simpa using hs2
        have := hlkGL src (effCached_eq_some _ _ _ _ _ this)
        rw [this] at hsrcp; exact absurd hsrcp (by simp)
      · rcases hif : (ghS && ghU && (effCached ghTok ghU hasCache lkGH).isNone) with _ | _
        · rw [hif] at hs3; simp at hs3
        · rw [hif] at hs3
          simp only [if_pos rfl] at hs3
          have : exceptToOption ghF = some src := by simpa using hs3
          rw [hwdata]
          exact exceptToOption_eq_some _ _ this
      · rcases hif : (glS && glU && (effCached glTok glU hasCache lkGL).isNone) with _ | _
        · rw [hif] at hs4; simp at hs4
        · rw [hif] at hs4
          simp only [if_pos rfl] at hs4
          have : exceptToOption glF = some src := by simpa using hs4
          have := hglF src (exceptToOption_eq_some _ _ this)
          rw [this] at hsrcp; exact absurd hsrcp (by simp)
    · intro hwp
      have hsrcp : src.provider = Provider.gitlab := by rw [← hwprov, hwp]
      have hcgl : (effCached glTok glU hasCache lkGL).isSome = false := (hgl hsrcp).1
      have hcgln : effCached glTok glU hasCache lkGL = none := by
        cases hx : effCached glTok glU hasCache lkGL with
        | none => rfl
        | some y => rw [hx] at hcgl; simp at hcgl
      refine ⟨hcgln, ?_⟩
      simp only [List.mem_append] at hsrc
      rcases hsrc with ((hs1 | hs2) | hs3) | hs4
      · have : effCached ghTok ghU hasCache lkGH = some src := by
          simpa using hs1
        have := hlkGH src (effCached_eq_some _ _ _ _ _ this)
        rw [this] at hsrcp; exact absurd hsrcp (by simp)
      · rw [hcgln] at hs2; simp at hs2
      · rcases hif : (ghS && ghU && (effCached ghTok ghU hasCache lkGH).isNone) with _ | _
        · rw [hif] at hs3; simp at hs3
        · rw [hif] at hs3
          simp only [if_pos rfl] at hs3
          have : exceptToOption ghF = some src := by simpa using hs3
          have := hghF src (exceptToOption_eq_some _ _ this)
          rw [this] at hsrcp; exact absurd hsrcp (by simp)
      · rcases hif : (glS && glU && (effCached glTok glU hasCache lkGL).isNone) with _ | _
        · rw [hif] at hs4; simp at hs4
        · rw [hif] at hs4
          simp only [if_pos rfl] at hs4
          have : exceptToOption glF = some src := by simpa using hs4
          rw [hwdata]
          exact exceptToOption_eq_some _ _ this

/-- Witness for C9: with a cache hit for github and a fresh gitlab fetch,
the single performed write (the gitlab one) is not a github write. -/
theorem cache_writeback_only_fresh_witness :
    ¬ (CacheWriteOp.mk Provider.gitlab ⟨Provider.gitlab, "v", [⟨0, 2⟩]⟩
        CACHE_TTL_MS).provider = Provider.github :=
  (cache_writeback_only_fresh true true true true true true true
      (some ⟨Provider.github, "u", []⟩) none
      (Except.error "e") (Except.ok ⟨Provider.gitlab, "v", [⟨0, 2⟩]⟩) 0 1
      (fun d hd => by cases hd)
      (fun d hd => by cases hd; rfl)
      (fun d hd => by cases hd; rfl)
      (fun d hd => by cases hd)).1 rfl
    (CacheWriteOp.mk Provider.gitlab ⟨Provider.gitlab, "v", [⟨0, 2⟩]⟩ CACHE_TTL_MS)
    (by decide)

/-! ## Association list lemmas -/

theorem assocGet_set_self {α : Type} (m : List (String × α)) (k : String) (v : α) :
    assocGet (assocSet m k v) k = some v := by
  induction m with
  | nil => simp [assocSet, assocGet]
  | cons p rest ih =>
    by_cases hp : p.1 = k
    · simp [assocSet, hp, assocGet]
    · simp [assocSet, hp, assocGet, ih]

theorem assocGet_set_other {α : Type} (m : List (String × α)) (k k2 : String) (v : α)
    (h : ¬ k2 = k) : assocGet (assocSet m k v) k2 = assocGet m k2 := by
  have hkk : ¬ k = k2 := fun hc => h hc.symm
  induction m with
  | nil =>
    simp only [assocSet, assocGet]
    rw [if_neg hkk]
  | cons p rest ih =>
    by_cases hp : p.1 = k
    · have hpk2 : ¬ p.1 = k2 := by rw [hp]; exact hkk
      simp only [assocSet, if_pos hp, assocGet]
      rw [if_neg hkk, if_neg hpk2]
    · simp only [assocSet, if_neg hp, assocGet]
      by_cases hp2 : p.1 = k2
      · rw [if_pos hp2, if_pos hp2]
      · rw [if_neg hp2, if_neg hp2, ih]

theorem assocGet_delete_self {α : Type} (m : List (String × α)) (k : String) :
    assocGet (assocDelete m k) k = none := by
  induction m with
  | nil => rfl
  | cons p rest ih =>
    by_cases hp : p.1 = k
    · simp [assocDelete, hp, ih]
    · simp [assocDelete, hp, assocGet, ih]

theorem assocGet_delete_other {α : Type} (m : List (String × α)) (k k2 : String)
    (h : ¬ k2 = k) : assocGet (assocDelete m k) k2 = assocGet m k2 := by
  induction m with
  | nil => rfl
  | cons p rest ih =>
    by_cases hp : p.1 = k
    · have hpk2 : ¬ p.1 = k2 := by rw [hp]; exact fun hc => h hc.symm
      simp only [assocDelete, if_pos hp, ih, assocGet]
      rw [if_neg hpk2]
    · simp only [assocDelete, if_neg hp, assocGet]
      by_cases hp2 : p.1 = k2
      · rw [if_pos hp2, if_pos hp2]
      · rw [if_neg hp2, if_neg hp2, ih]

theorem assocSet_fresh {α : Type} (m : List (String × α)) (k : String) (v : α)
    (h : assocGet m k = none) : assocSet m k v = m ++ [(k, v)] := by
  induction m with
  | nil => rfl
  | cons p rest ih =>
    by_cases hp : p.1 = k
    · rw [assocGet, if_pos hp] at h
      cases h
    · rw [assocGet, if_neg hp] at h
      simp [assocSet, hp, ih h]

theorem assocDelete_fresh {α : Type} (m : List (String × α)) (k : String)
    (h : assocGet m k = none) : assocDelete m k = m := by
  induction m with
  | nil => rfl
  | cons p rest ih =>
    by_cases hp : p.1 = k
    · rw [assocGet, if_pos hp] at h
      cases h
    · rw [assocGet, if_neg hp] at h
      simp [assocDelete, hp, ih h]

theorem assocGet_append {α : Type} (m1 m2 : List (String × α)) (k : String) :
    assocGet (m1 ++ m2) k =
      match assocGet m1 k with
      | some v => some v
      | none => assocGet m2 k := by
  induction m1 with
  | nil => rfl
  | cons p rest ih =>
    by_cases hp : p.1 = k
    · simp [assocGet, hp]
    · simp [assocGet, hp, ih]

/-! ## Cache round-trip and TTL theorems -/

theorem memcache_set_valid {V : Type} (opts : MemoryCacheOptions) (s : CacheState V)
    (k : String) (v : V) (t : Int) (now : Int) (h : ¬ t ≤ 0) :
    MemCache.set opts s k v (some t) now =
      (⟨assocSet (MemCache.evictLRU opts s).store k ⟨v, now + t⟩,
        assocSet (MemCache.evictLRU opts s).accessTimes k now,
        (MemCache.evictLRU opts s).hits, (MemCache.evictLRU opts s).misses⟩, none) := by
  unfold MemCache.set
  simp [h]

theorem memcache_get_hit {V : Type} (s : CacheState V) (k : String) (now : Int)
    (entry : CacheEntry V) (hget : assocGet s.store k = some entry)
    (hexp : MemCache.isExpired entry now = false) :
    MemCache.get s k now =
      (some entry.value, ⟨s.store, assocSet s.accessTimes k now, s.hits + 1, s.misses⟩) := by
  unfold MemCache.get
  rw [hget]
  simp [hexp]

theorem memcache_get_expired {V : Type} (s : CacheState V) (k : String) (now : Int)
    (entry : CacheEntry V) (hget : assocGet s.store k = some entry)
    (hexp : MemCache.isExpired entry now = true) :
    MemCache.get s k now =
      (none, ⟨assocDelete s.store k, assocDelete s.accessTimes k, s.hits, s.misses + 1⟩) := by
  unfold MemCache.get
  rw [hget]
  simp [hexp]

theorem memcache_get_missing {V : Type} (s : CacheState V) (k : String) (now : Int)
    (hget : assocGet s.store k = none) :
    MemCache.get s k now = (none, ⟨s.store, s.accessTimes, s.hits, s.misses + 1⟩) := by
  unfold MemCache.get
  rw [hget]

/-- C5: immediately after set(k, v, ttl) with a positive ttl, get(k) at the
same clock returns v; once the clock reaches or passes the expiry
now + ttl, get(k) returns none and deletes the entry from both the store
and the access-time map as a side effect. -/
theorem cache_set_get_roundtrip {V : Type} (opts : MemoryCacheOptions) (s : CacheState V)
    (k : String) (v : V) (ttl : Int) (now : Int) (h : 0 < ttl) :
    (MemCache.set opts s k v (some ttl) now).2 = none ∧
    (MemCache.get (MemCache.set opts s k v (some ttl) now).1 k now).1 = some v ∧
    (∀ now2 : Int, now + ttl ≤ now2 →
      (MemCache.get (MemCache.set opts s k v (some ttl) now).1 k now2).1 = none ∧
      assocGet (MemCache.get (MemCache.set opts s k v (some ttl) now).1 k now2).2.store k = none ∧
      assocGet (MemCache.get (MemCache.set opts s k v (some ttl) now).1 k now2).2.accessTimes k = none) := by
  have httl : ¬ ttl ≤ 0 := by omega
  rw [memcache_set_valid opts s k v ttl now httl]
  have hget : assocGet (assocSet (MemCache.evictLRU opts s).store k
      (⟨v, now + ttl⟩ : CacheEntry V)) k = some ⟨v, now + ttl⟩ :=
    assocGet_set_self _ k _
  refine ⟨rfl, ?_, ?_⟩
  · have hexp : MemCache.isExpired (⟨v, now + ttl⟩ : CacheEntry V) now = false := by
      unfold MemCache.isExpired
      simp only [decide_eq_false_iff_not]
      omega
    rw [memcache_get_hit _ k now _ hget hexp]
  · intro now2 h2
    have hexp : MemCache.isExpired (⟨v, now + ttl⟩ : CacheEntry V) now2 = true := by
      unfold MemCache.isExpired
      simp only [decide_eq_true_eq]
      omega
    rw [memcache_get_expired _ k now2 _ hget hexp]
    exact ⟨rfl, assocGet_delete_self _ k, assocGet_delete_self _ k⟩

/-- Witness for C5 at a concrete key, value, TTL and clock. -/
theorem cache_set_get_roundtrip_witness :
    (MemCache.get (MemCache.set ⟨none, none⟩ (emptyCache Nat) "k" 7 (some 100) 0).1 "k" 0).1 =
      some 7 :=
  (cache_set_get_roundtrip ⟨none, none⟩ (emptyCache Nat) "k" 7 100 0 (by decide)).2.1

/-- C8: a set call with a non-positive TTL, or with no TTL argument and no
configured default, throws the invalid-TTL error and leaves the cache state
unchanged. -/
theorem cache_set_invalid_ttl_rejected {V : Type} (opts : MemoryCacheOptions)
    (s : CacheState V) (k : String) (v : V) (ttlMs : Option Int) (now : Int)
    (h : (∃ t, ttlMs = some t ∧ t ≤ 0) ∨ (ttlMs = none ∧ opts.defaultTtlMs = none)) :
    (MemCache.set opts s k v ttlMs now).1 = s ∧
    (MemCache.set opts s k v ttlMs now).2.isSome = true := by
  rcases h with ⟨t, ht, htle⟩ | ⟨ht, hd⟩
  · subst ht
    unfold MemCache.set
    simp [htle]
  · subst ht
    unfold MemCache.set
    simp [hd]

/-- Witness for C8: a zero TTL is rejected without mutating the cache. -/
theorem cache_set_invalid_ttl_rejected_witness :
    (MemCache.set ⟨none, none⟩ (emptyCache Nat) "k" 7 (some 0) 5).1 = emptyCache Nat :=
  (cache_set_invalid_ttl_rejected ⟨none, none⟩ (emptyCache Nat) "k" 7 (some 0) 5
    (Or.inl ⟨0, rfl, by decide⟩)).1

/-! ## GitLab event weighting -/

/-- Counterexample for C7 as stated: this qualifying push event carries an
embedded commit count of 0, so by the claim it should count as 0
contributions, but the code weighs it 1 (the JS truthiness test
`event.pushData?.commitCount` treats 0 like an absent count). -/
theorem push_zero_commit_counterexample :
    isContributionEvent zeroCommitPush = true ∧
    isPushAction zeroCommitPush.actionName = true ∧
    pushCommitCountOf zeroCommitPush = some 0 ∧
    getEventContributionWeight zeroCommitPush = 1 := by decide

/-- C7 (amended): every qualifying event weighs 1, except a push event
carrying a nonzero embedded commit count, which weighs that count; a push
with no commit count, or a commit count of 0, falls back to weight 1. A
push event with commit count 4 alone on its day yields a day count of 4. -/
theorem event_contribution_weighting (e : GitLabEvent) :
    (isPushAction e.actionName = false → getEventContributionWeight e = 1) ∧
    (∀ c : Nat, isPushAction e.actionName = true → pushCommitCountOf e = some c →
      ¬ c = 0 → getEventContributionWeight e = c) ∧
    (pushCommitCountOf e = none → getEventContributionWeight e = 1) ∧
    (pushCommitCountOf e = some 0 → getEventContributionWeight e = 1) ∧
    aggregateEventsByDay [samplePushFour] = [⟨"2025-06-01", 4, "gitlab"⟩] := by
  refine ⟨?_, ?_, ?_, ?_, by decide⟩
  · intro h
    simp [getEventContributionWeight, h]
  · intro c hp hc hc0
    simp [getEventContributionWeight, hp, hc, hc0]
  · intro h
    cases hpa : isPushAction e.actionName <;>
      simp [getEventContributionWeight, h, hpa]
  · intro h
    cases hpa : isPushAction e.actionName <;>
      simp [getEventContributionWeight, h, hpa]

/-- Witness for C7: the sample push with 4 commits weighs 4. -/
theorem event_contribution_weighting_witness :
    getEventContributionWeight samplePushFour = 4 :=
  (event_contribution_weighting samplePushFour).2.1 4 rfl rfl (by decide)

/-! ## GitLab event deduplication -/

theorem dedup_fold_props (events : List GitLabEvent) :
    ∀ st : List GitLabEvent × List Nat,
      st.2 = st.1.map (fun e => e.id) →
      (st.1.map (fun e => e.id)).Nodup →
      ((events.foldl dedupStep st).2 = (events.foldl dedupStep st).1.map (fun e => e.id)) ∧
      (((events.foldl dedupStep st).1.map (fun e => e.id)).Nodup) ∧
      (∀ e ∈ (events.foldl dedupStep st).1, e ∈ st.1 ∨ e ∈ events) ∧
      (∀ e ∈ events, ∃ e2 ∈ (events.foldl dedupStep st).1, e2.id = e.id) ∧
      (∀ e ∈ st.1, e ∈ (events.foldl dedupStep st).1) := by
  induction events with
  | nil =>
    intro st h1 h2
    exact ⟨h1, h2, fun e he => Or.inl he, by simp, fun e he => he⟩
  | cons ev rest ih =>
    intro st h1 h2
    simp only [List.foldl_cons]
    by_cases hmem : ev.id ∈ st.2
    · have hstep : dedupStep st ev = st := by simp [dedupStep, hmem]
      rw [hstep]
      obtain ⟨c1, c2, c3, c4, c5⟩ := ih st h1 h2
      refine ⟨c1, c2, fun e he => (c3 e he).imp id (List.mem_cons_of_mem ev), ?_, c5⟩
      intro e he
      rcases List.mem_cons.1 he with rfl | hrest
      · rw [h1] at hmem
        obtain ⟨e0, he0, hid⟩ := List.mem_map.1 hmem
        exact ⟨e0, c5 e0 he0, hid⟩
      · exact c4 e hrest
    · have hstep : dedupStep st ev = (st.1 ++ [ev], st.2 ++ [ev.id]) := by
        simp [dedupStep, hmem]
      rw [hstep]
      have hidnotin : ev.id ∉ st.1.map (fun e => e.id) := by rw [← h1]; exact hmem
      have h1' : (st.1 ++ [ev], st.2 ++ [ev.id]).2 =
          ((st.1 ++ [ev], st.2 ++ [ev.id]).1).map (fun e => e.id) := by
        simp [h1]
      have h2' : (((st.1 ++ [ev], st.2 ++ [ev.id]).1).map (fun e => e.id)).Nodup := by
        simp only [List.map_append, List.map_cons, List.map_nil]
        rw [List.nodup_append]
        refine ⟨h2, List.nodup_singleton _, ?_⟩
        intro x hx
        simp only [List.mem_singleton]
        intro hx1
        subst hx1
        exact hidnotin hx
      obtain ⟨c1, c2, c3, c4, c5⟩ := ih (st.1 ++ [ev], st.2 ++ [ev.id]) h1' h2'
      refine ⟨c1, c2, ?_, ?_, ?_⟩
      · intro e he
        rcases c3 e he with hin | hin
        · rcases List.mem_append.1 hin with h | h
          · exact Or.inl h
          · simp only [List.mem_singleton] at h
            subst h
            exact Or.inr (List.mem_cons_self e rest)
        · exact Or.inr (List.mem_cons_of_mem ev hin)
      · intro e he
        rcases List.mem_cons.1 he with rfl | hrest
        · exact ⟨e, c5 e (List.mem_append.2 (Or.inr (by simp))), rfl⟩
        · exact c4 e hrest
      · intro e he
        exact c5 e (List.mem_append.2 (Or.inl he))

/-- C6: across all action-category queries of one GitLab fetch, events are
deduplicated by id: the returned list has pairwise distinct ids (so an event
contributes to the per-day aggregation exactly once), every input event is
represented by exactly one kept event with its id, and nothing else is
returned. -/
theorem gitlab_dedup_unique_ids (responses : List (List GitLabEvent)) :
    ((fetchUserEvents responses).map (fun e => e.id)).Nodup ∧
    (∀ e ∈ responses.flatten, ∃ e2 ∈ fetchUserEvents responses, e2.id = e.id) ∧
    (∀ e2 ∈ fetchUserEvents responses, e2 ∈ responses.flatten) := by
  have hfold : fetchUserEvents responses =
      ((responses.flatten).foldl dedupStep (([], []) : List GitLabEvent × List Nat)).1 := by
    unfold fetchUserEvents
    rw [List.foldl_flatten]
  obtain ⟨c1, c2, c3, c4, c5⟩ :=
    dedup_fold_props responses.flatten (([], []) : List GitLabEvent × List Nat) rfl (by simp)
  rw [hfold]
  refine ⟨c2, fun e he => c4 e he, ?_⟩
  intro e2 he2
  rcases c3 e2 he2 with h | h
  · simp at h
  · exact h

/-- Witness for C6: an event returned by two category queries is kept once. -/
theorem gitlab_dedup_unique_ids_witness :
    ((fetchUserEvents [[⟨1, "pushed", none, "d", none⟩],
        [⟨1, "pushed", none, "d", none⟩]]).map (fun e => e.id)).Nodup :=
  (gitlab_dedup_unique_ids [[⟨1, "pushed", none, "d", none⟩],
    [⟨1, "pushed", none, "d", none⟩]]).1

/-! ## LRU eviction -/

/-- Counterexample for C4 as stated: with maxSize = 1, inserting the two
distinct keys "" and "x" (valid TTLs, no intervening get) leaves BOTH
entries in the store — the store grows to 2 > maxSize and the
first-inserted key "" is still retrievable. The scan of evictLRU finds ""
as the least recently used key, but the JS guard `if (oldestKey)` treats
the empty-string key as falsy and skips the deletion. -/
theorem lru_empty_key_counterexample :
    ((MemCache.set ⟨none, some 1⟩
        ((MemCache.set ⟨none, some 1⟩ (emptyCache Nat) "" 0 (some 1000) 0).1)
        "x" 1 (some 1000) 1).1).store.length = 2 ∧
    (MemCache.get ((MemCache.set ⟨none, some 1⟩
        ((MemCache.set ⟨none, some 1⟩ (emptyCache Nat) "" 0 (some 1000) 0).1)
        "x" 1 (some 1000) 1).1) "" 1).1 = some 0 := by decide

theorem assocGet_singleton {α : Type} (k k2 : String) (v : α) :
    assocGet [(k, v)] k2 = if k = k2 then some v else none := rfl

theorem memcache_set_fresh_under {V : Type} (dflt : Option Int) (n : Nat)
    (s : CacheState V) (k : String) (v : V) (t now : Int)
    (hlen : s.store.length < n) (ht : ¬ t ≤ 0) :
    (MemCache.set ⟨dflt, some n⟩ s k v (some t) now).1 =
      ⟨assocSet s.store k ⟨v, now + t⟩, assocSet s.accessTimes k now,
        s.hits, s.misses⟩ := by
  rw [memcache_set_valid ⟨dflt, some n⟩ s k v t now ht]
  have hev : MemCache.evictLRU ⟨dflt, some n⟩ s = s := by
    simp [MemCache.evictLRU, hlen]
  rw [hev]

theorem runSets_fresh {V : Type} (dflt : Option Int) (n : Nat) :
    ∀ (ops : List (SetOp V)) (s : CacheState V),
      s.store.length + ops.length ≤ n →
      ((ops.map (fun op => op.key)).Nodup) →
      (∀ op ∈ ops, assocGet s.store op.key = none) →
      (∀ op ∈ ops, assocGet s.accessTimes op.key = none) →
      (∀ op ∈ ops, 0 < op.ttl) →
      runSets ⟨dflt, some n⟩ s ops =
        ⟨s.store ++ opsStoreEntries ops, s.accessTimes ++ opsAccessTimes ops,
          s.hits, s.misses⟩ := by
  intro ops
  induction ops with
  | nil =>
    intro s _ _ _ _ _
    simp [runSets, opsStoreEntries, opsAccessTimes]
  | cons op rest ih =>
    intro s hlen hnd hfs hfa httl
    have hlen1 : s.store.length < n := by
      simp only [List.length_cons] at hlen
      omega
    have ht : ¬ op.ttl ≤ 0 := by
      have := httl op (List.mem_cons_self op rest)
      omega
    have hfs0 : assocGet s.store op.key = none := hfs op (List.mem_cons_self op rest)
    have hfa0 : assocGet s.accessTimes op.key = none := hfa op (List.mem_cons_self op rest)
    have hkey : op.key ∉ rest.map (fun o => o.key) := by
      have := hnd
      rw [List.map_cons, List.nodup_cons] at this
      exact this.1
    have hone : (MemCache.set ⟨dflt, some n⟩ s op.key op.value (some op.ttl) op.time).1 =
        ⟨s.store ++ [(op.key, ⟨op.value, op.time + op.ttl⟩)],
          s.accessTimes ++ [(op.key, op.time)], s.hits, s.misses⟩ := by
      rw [memcache_set_fresh_under dflt n s op.key op.value op.ttl op.time hlen1 ht]
      rw [assocSet_fresh s.store op.key _ hfs0, assocSet_fresh s.accessTimes op.key _ hfa0]
    have hfresh2 : ∀ o2 ∈ rest, ¬ op.key = o2.key := by
      intro o2 ho2 hc
      exact hkey (hc ▸ List.mem_map_of_mem (fun o => o.key) ho2)
    have hrun : runSets ⟨dflt, some n⟩ s (op :: rest) =
        runSets ⟨dflt, some n⟩
          ⟨s.store ++ [(op.key, ⟨op.value, op.time + op.ttl⟩)],
            s.accessTimes ++ [(op.key, op.time)], s.hits, s.misses⟩ rest := by
      unfold runSets
      rw [List.foldl_cons, hone]
    have hA : (s.store ++
        [(op.key, (⟨op.value, op.time + op.ttl⟩ : CacheEntry V))]).length + rest.length ≤ n := by
      simp only [List.length_cons] at hlen
      simp only [List.length_append, List.length_cons, List.length_nil]
      omega
    have hB : (rest.map (fun o => o.key)).Nodup := by
      rw [List.map_cons, List.nodup_cons] at hnd
      exact hnd.2
    have hC : ∀ o2 ∈ rest, assocGet (s.store ++
        [(op.key, (⟨op.value, op.time + op.ttl⟩ : CacheEntry V))]) o2.key = none := by
      intro o2 ho2
      rw [assocGet_append, hfs o2 (List.mem_cons_of_mem op ho2)]
      rw [assocGet_singleton, if_neg (hfresh2 o2 ho2)]
    have hD : ∀ o2 ∈ rest, assocGet (s.accessTimes ++ [(op.key, op.time)]) o2.key = none := by
      intro o2 ho2
      rw [assocGet_append, hfa o2 (List.mem_cons_of_mem op ho2)]
      rw [assocGet_singleton, if_neg (hfresh2 o2 ho2)]
    have hE : ∀ o2 ∈ rest, 0 < o2.ttl :=
      fun o2 ho2 => httl o2 (List.mem_cons_of_mem op ho2)
    have hih := ih ⟨s.store ++ [(op.key, ⟨op.value, op.time + op.ttl⟩)],
      s.accessTimes ++ [(op.key, op.time)], s.hits, s.misses⟩ hA hB hC hD hE
    rw [hrun, hih]
    simp [opsStoreEntries, opsAccessTimes, List.append_assoc]

theorem findOldest_keep (l : List (String × Int)) :
    ∀ q : String × Int, (∀ p ∈ l, q.2 ≤ p.2) →
      l.foldl MemCache.findOldestStep (some q) = some q := by
  induction l with
  | nil => intro q _; rfl
  | cons p rest ih =>
    intro q hq
    simp only [List.foldl_cons, MemCache.findOldestStep]
    rw [if_neg (not_lt.2 (hq p (List.mem_cons_self p rest)))]
    exact ih q (fun p2 hp2 => hq p2 (List.mem_cons_of_mem p hp2))

theorem findOldest_head_min (k0 : String) (t0 : Int) (rest : List (String × Int))
    (h : ∀ p ∈ rest, t0 ≤ p.2) :
    MemCache.findOldest ((k0, t0) :: rest) = some (k0, t0) := by
  unfold MemCache.findOldest
  rw [List.foldl_cons]
  exact findOldest_keep rest (k0, t0) h

theorem assocGet_opsStore_mem {V : Type} (ops : List (SetOp V)) :
    ∀ op : SetOp V, op ∈ ops → ((ops.map (fun o => o.key)).Nodup) →
      assocGet (opsStoreEntries ops) op.key =
        some ⟨op.value, op.time + op.ttl⟩ := by
  induction ops with
  | nil => intro op hmem; cases hmem
  | cons o rest ih =>
    intro op hmem hnd
    rw [List.map_cons, List.nodup_cons] at hnd
    rcases List.mem_cons.1 hmem with rfl | hrest
    · simp [opsStoreEntries, assocGet]
    · have hk : ¬ o.key = op.key := by
        intro hc
        exact hnd.1 (hc ▸ List.mem_map_of_mem (fun o => o.key) hrest)
      simp only [opsStoreEntries, List.map_cons, assocGet, if_neg hk]
      exact ih op hrest hnd.2

theorem assocGet_opsStore_none {V : Type} (ops : List (SetOp V)) (k : String)
    (h : ∀ op ∈ ops, ¬ op.key = k) : assocGet (opsStoreEntries ops) k = none := by
  induction ops with
  | nil => rfl
  | cons o rest ih =>
    simp only [opsStoreEntries, List.map_cons, assocGet,
      if_neg (h o (List.mem_cons_self o rest))]
    exact ih (fun op hop => h op (List.mem_cons_of_mem o hop))

theorem assocDelete_cons_self {α : Type} (k : String) (v : α) (m : List (String × α)) :
    assocDelete ((k, v) :: m) k = assocDelete m k := by
  simp [assocDelete]

theorem assocGet_opsAccess_none {V : Type} (ops : List (SetOp V)) (k : String)
    (h : ∀ op ∈ ops, ¬ op.key = k) : assocGet (opsAccessTimes ops) k = none := by
  induction ops with
  | nil => rfl
  | cons o rest ih =>
    simp only [opsAccessTimes, List.map_cons, assocGet,
      if_neg (h o (List.mem_cons_self o rest))]
    exact ih (fun op hop => h op (List.mem_cons_of_mem o hop))

/-- C4 (amended): starting from an empty cache with maxSize = n (n >= 1),
inserting n + 1 distinct NON-EMPTY keys with valid TTLs at nondecreasing
clock values and no intervening get evicts exactly the first-inserted key:
it is gone from the store, every later key remains retrievable before its
expiry with its stored value, and no prefix of the run ever leaves more
than n entries in the store. (The non-empty restriction is forced by the
counterexample: the falsy empty-string key defeats the eviction guard.) -/
theorem lru_eviction_nonempty_keys {V : Type} (n : Nat) (hn : 1 ≤ n) (dflt : Option Int)
    (op0 : SetOp V) (rest : List (SetOp V))
    (hrestlen : rest.length = n)
    (hnd : ((op0 :: rest).map (fun op => op.key)).Nodup)
    (hne : ∀ op ∈ op0 :: rest, ¬ op.key = "")
    (httl : ∀ op ∈ op0 :: rest, 0 < op.ttl)
    (hmono : ((op0 :: rest).map (fun op => op.time)).Sorted (fun a b => a ≤ b)) :
    assocGet (runSets ⟨dflt, some n⟩ (emptyCache V) (op0 :: rest)).store op0.key = none ∧
    (∀ op ∈ rest, ∀ now : Int, now < op.time + op.ttl →
      (MemCache.get (runSets ⟨dflt, some n⟩ (emptyCache V) (op0 :: rest)) op.key now).1 =
        some op.value) ∧
    (∀ j : Nat, (runSets ⟨dflt, some n⟩ (emptyCache V) ((op0 :: rest).take j)).store.length ≤ n) := by
  rcases List.eq_nil_or_concat rest with rfl | ⟨mid, opN, rfl⟩
  · simp at hrestlen
    omega
  rw [List.concat_eq_append] at hrestlen hnd hne httl hmono ⊢
  have hmidlen : mid.length + 1 = n := by
    simpa using hrestlen
  have hk0 : op0.key ∉ (mid ++ [opN]).map (fun o => o.key) := by
    rw [List.map_cons, List.nodup_cons] at hnd
    exact hnd.1
  have hndtail : ((mid ++ [opN]).map (fun o => o.key)).Nodup := by
    rw [List.map_cons, List.nodup_cons] at hnd
    exact hnd.2
  have hall0 : ∀ o ∈ mid ++ [opN], ¬ o.key = op0.key := by
    intro o ho hc
    exact hk0 (hc ▸ List.mem_map_of_mem (fun o => o.key) ho)
  have hmidfresh0 : ∀ o ∈ mid, ¬ o.key = op0.key :=
    fun o ho => hall0 o (List.mem_append.2 (Or.inl ho))
  have hopNfresh : ∀ o ∈ mid, ¬ o.key = opN.key := by
    intro o ho hc
    have hnd2 := hndtail
    rw [List.map_append, List.nodup_append] at hnd2
    exact hnd2.2.2 (List.mem_map_of_mem (fun o => o.key) ho)
      (by rw [hc]; simp)
  have hne0 : ¬ op0.key = "" := hne op0 (List.mem_cons_self _ _)
  have htN : ¬ opN.ttl ≤ 0 := by
    have := httl opN (List.mem_cons_of_mem op0 (List.mem_append.2 (Or.inr (by simp))))
    omega
  have hnodup1 : ((op0 :: mid).map (fun o => o.key)).Nodup := by
    have hsub : List.Sublist (op0 :: mid) (op0 :: (mid ++ [opN])) :=
      List.sublist_append_left (op0 :: mid) [opN]
    exact List.Nodup.sublist (hsub.map (fun o => o.key)) hnd
  have httl1 : ∀ op ∈ op0 :: mid, 0 < op.ttl := by
    intro o ho
    apply httl
    rcases List.mem_cons.1 ho with rfl | h
    · exact List.mem_cons_self _ _
    · exact List.mem_cons_of_mem _ (List.mem_append.2 (Or.inl h))
  have hrun1 : runSets ⟨dflt, some n⟩ (emptyCache V) (op0 :: mid) =
      ⟨opsStoreEntries (op0 :: mid), opsAccessTimes (op0 :: mid), 0, 0⟩ := by
    have h := runSets_fresh dflt n (op0 :: mid) (emptyCache V)
      (by simp [emptyCache]; omega) hnodup1
      (fun o _ => rfl) (fun o _ => rfl) httl1
    simpa [emptyCache] using h
  have hs1len : (opsStoreEntries (op0 :: mid) : List (String × CacheEntry V)).length = n := by
    simp [opsStoreEntries]
    omega
  have hcond : ¬ (n = 0 ∨ (opsStoreEntries (op0 :: mid) :
      List (String × CacheEntry V)).length < n) := by
    rw [hs1len]
    omega
  have hmin : ∀ p ∈ opsAccessTimes (V := V) mid, op0.time ≤ p.2 := by
    intro p hp
    simp only [opsAccessTimes, List.mem_map] at hp
    obtain ⟨o, ho, rfl⟩ := hp
    have hmono2 := hmono
    rw [List.map_cons, List.sorted_cons] at hmono2
    exact hmono2.1 o.time (List.mem_map_of_mem (fun o => o.time)
      (List.mem_append.2 (Or.inl ho)))
  have hfindold : MemCache.findOldest (opsAccessTimes (V := V) (op0 :: mid)) =
      some (op0.key, op0.time) := by
    have heq : opsAccessTimes (V := V) (op0 :: mid) =
        (op0.key, op0.time) :: opsAccessTimes mid := rfl
    rw [heq]
    exact findOldest_head_min op0.key op0.time (opsAccessTimes mid) hmin
  have hdelstore : assocDelete (opsStoreEntries (op0 :: mid)) op0.key =
      opsStoreEntries (V := V) mid := by
    have heq : opsStoreEntries (op0 :: mid) =
        (op0.key, (⟨op0.value, op0.time + op0.ttl⟩ : CacheEntry V)) ::
          opsStoreEntries mid := rfl
    rw [heq, assocDelete_cons_self]
    exact assocDelete_fresh _ _ (assocGet_opsStore_none mid op0.key hmidfresh0)
  have hdeltimes : assocDelete (opsAccessTimes (V := V) (op0 :: mid)) op0.key =
      opsAccessTimes (V := V) mid := by
    have heq : opsAccessTimes (V := V) (op0 :: mid) =
        (op0.key, op0.time) :: opsAccessTimes mid := rfl
    rw [heq, assocDelete_cons_self]
    exact assocDelete_fresh _ _ (assocGet_opsAccess_none mid op0.key hmidfresh0)
  have hevict : MemCache.evictLRU ⟨dflt, some n⟩
      (⟨opsStoreEntries (op0 :: mid), opsAccessTimes (op0 :: mid), 0, 0⟩ : CacheState V) =
      ⟨opsStoreEntries mid, opsAccessTimes mid, 0, 0⟩ := by
    simp [MemCache.evictLRU, hcond, hfindold, hne0, hdelstore, hdeltimes]
  have hsetfin : (MemCache.set ⟨dflt, some n⟩
      (⟨opsStoreEntries (op0 :: mid), opsAccessTimes (op0 :: mid), 0, 0⟩ : CacheState V)
      opN.key opN.value (some opN.ttl) opN.time).1 =
      ⟨opsStoreEntries (mid ++ [opN]), opsAccessTimes (mid ++ [opN]), 0, 0⟩ := by
    rw [memcache_set_valid _ _ _ _ _ _ htN]
    simp only [hevict]
    rw [assocSet_fresh _ _ _ (assocGet_opsStore_none mid opN.key hopNfresh)]
    rw [assocSet_fresh _ _ _ (assocGet_opsAccess_none mid opN.key hopNfresh)]
    simp [opsStoreEntries, opsAccessTimes]
  have hfinal : runSets ⟨dflt, some n⟩ (emptyCache V) (op0 :: (mid ++ [opN])) =
      ⟨opsStoreEntries (mid ++ [opN]), opsAccessTimes (mid ++ [opN]), 0, 0⟩ := by
    have heq : op0 :: (mid ++ [opN]) = (op0 :: mid) ++ [opN] := rfl
    rw [heq]
    unfold runSets at hrun1 ⊢
    rw [List.foldl_append, hrun1]
    simp only [List.foldl_cons, List.foldl_nil]
    exact hsetfin
  refine ⟨?_, ?_, ?_⟩
  · rw [hfinal]
    exact assocGet_opsStore_none (mid ++ [opN]) op0.key hall0
  · intro op hop now hnow
    rw [hfinal]
    have hget : assocGet (opsStoreEntries (mid ++ [opN])) op.key =
        some ⟨op.value, op.time + op.ttl⟩ :=
      assocGet_opsStore_mem (mid ++ [opN]) op hop hndtail
    have hexp : MemCache.isExpired (⟨op.value, op.time + op.ttl⟩ : CacheEntry V) now
        = false := by
      unfold MemCache.isExpired
      simp only [decide_eq_false_iff_not]
      omega
    rw [memcache_get_hit _ op.key now _ hget hexp]
  · intro j
    by_cases hj : j ≤ n
    · have htake : (op0 :: (mid ++ [opN])).take j = (op0 :: mid).take j := by
        have heq : op0 :: (mid ++ [opN]) = (op0 :: mid) ++ [opN] := rfl
        rw [heq]
        exact List.take_append_of_le_length (by simp; omega)
      rw [htake]
      have hrunt : runSets ⟨dflt, some n⟩ (emptyCache V) ((op0 :: mid).take j) =
          ⟨opsStoreEntries ((op0 :: mid).take j),
            opsAccessTimes ((op0 :: mid).take j), 0, 0⟩ := by
        have h := runSets_fresh dflt n ((op0 :: mid).take j) (emptyCache V)
          (by
            simp only [emptyCache, List.length_nil, Nat.zero_add]
            exact le_trans (List.length_take_le j _) hj)
          (by
            have hsub := (List.take_sublist j (op0 :: mid)).map (fun o => o.key)
            exact List.Nodup.sublist hsub hnodup1)
          (fun o _ => rfl) (fun o _ => rfl)
          (fun o ho => httl1 o (List.mem_of_mem_take ho))
        simpa [emptyCache] using h
      rw [hrunt]
      simp only [opsStoreEntries, List.length_map]
      exact le_trans (List.length_take_le j _) hj
    · have hfull : (op0 :: (mid ++ [opN])).take j = op0 :: (mid ++ [opN]) := by
        apply List.take_of_length_le
        simp
        omega
      rw [hfull, hfinal]
      simp only [opsStoreEntries, List.length_map, List.length_append,
        List.length_cons, List.length_nil]
      omega

/-- Witness for C4 (amended) at maxSize 1 with keys "a" then "b". -/
theorem lru_eviction_nonempty_keys_witness :
    assocGet (runSets ⟨none, some 1⟩ (emptyCache Nat)
      [⟨"a", 0, 1000, 0⟩, ⟨"b", 1, 1000, 1⟩]).store "a" = none :=
  (lru_eviction_nonempty_keys 1 (by decide) none ⟨"a", 0, 1000, 0⟩
    [⟨"b", 1, 1000, 1⟩] rfl (by decide) (by decide) (by decide) (by decide)).1

end GitHeatmaps
